import Mathlib

/-!
Verification of the tournament bracket generation engine
(`src/utils/tournamentBracketGenerator.ts`): `generateFixturesBracket`
(single-elimination with byes) and `generateGroupStage` (group stage plus
knockout skeleton). The TypeScript functions are shallowly embedded as pure
Lean functions over `List`; JavaScript `undefined` fields of `Match` become
`Option.none`, array mutation is made explicit where it matters, and the two
`while` loops become well-founded recursions on their decreasing counters.
-/

namespace Tournament

/-- Embeds `interface Participant { id: string; name: string; seed: number }`.
Seeds are positive integers, so `Nat` models `seed`. -/
structure Participant where
  id : String
  name : String
  seed : Nat
deriving DecidableEq

/-- Embeds `interface Match`, with optional `participant1`, `participant2`, `winner`
modelled as `Option` (absent field = `none`, mirroring `undefined`). -/
structure Match where
  id : String
  participant1 : Option Participant := none
  participant2 : Option Participant := none
  winner : Option Participant := none
  round : Nat
  matchNumber : Nat
deriving DecidableEq

/-- Embeds `interface Group { name: string; participants: Participant[]; matches: Match[] }`.
The source field `matches` is a reserved word in Lean, so it is embedded here
as `matchList`. -/
structure Group where
  name : String
  participants : List Participant
  matchList : List Match
deriving DecidableEq

/-- Return type of `generateGroupStage`: `{ groups: Group[]; knockoutBracket: Match[] }`. -/
structure GroupStageResult where
  groups : List Group
  knockoutBracket : List Match
deriving DecidableEq

/-- Helper for `sortBySeed`: insert `p` before the first element whose seed is
not smaller, keeping the relative order of equal seeds (stability, as
guaranteed for `Array.prototype.sort`). -/
def insertBySeed (p : Participant) : List Participant → List Participant
  | [] => [p]
  | q :: qs => if p.seed ≤ q.seed then p :: q :: qs else q :: insertBySeed p qs

/-- Models `participantsForFirstRound.sort((a, b) => a.seed - b.seed)`: a
stable ascending sort by seed (insertion sort; any stable sort realises the
JavaScript contract, and on the distinct seeds assumed by the spec all sorts
agree). -/
def sortBySeed : List Participant → List Participant
  | [] => []
  | p :: ps => insertBySeed p (sortBySeed ps)

/-- Models the loop `let powerOf2 = 1; while (powerOf2 < total) powerOf2 *= 2`.
The loop is entered with `p = 1` and doubles `p`, so `0 < p` holds throughout;
the conjunct only records that invariant to make termination explicit. -/
def powerOf2From (p n : Nat) : Nat :=
  if h : 0 < p ∧ p < n then powerOf2From (p * 2) n else p
termination_by n - p
decreasing_by omega

/-- The `powerOf2` value computed by the source for `n` participants: the
smallest power of two that is at least `n` (and `1` when `n = 0`). -/
def nextPowerOfTwo (n : Nat) : Nat := powerOf2From 1 n

/-- Models `if (powerOf2 > totalParticipants) byes = powerOf2 - totalParticipants`. -/
def byeCount (n : Nat) : Nat :=
  if n < nextPowerOfTwo n then nextPowerOfTwo n - n else 0

/-- Models the round-1 pairing loop
`for (let i = 0; i < playersInFirstRound.length; i += 2)` pushing
`{ participant1: players[i], participant2: players[i+1], round: 1,
matchNumber: matches.length + 1 }`. `n` is the next match number. When the
list has odd length the final iteration reads `players[i+1]` past the end, so
`participant2` is `undefined`, i.e. `none`; no winner is ever set here. -/
def mkPlayMatches : List Participant → Nat → List Match
  | [], _ => []
  | [p], n =>
      [{ id := "match-1-" ++ toString n, participant1 := some p,
         round := 1, matchNumber := n }]
  | p :: q :: rest, n =>
      { id := "match-1-" ++ toString n, participant1 := some p,
        participant2 := some q, round := 1, matchNumber := n }
        :: mkPlayMatches rest (n + 1)

/-- Models the `playersWithByes.forEach` loop pushing
`{ participant1: player, winner: player, round: 1,
matchNumber: matches.length + 1 }` for each bye recipient. -/
def mkByeMatches : List Participant → Nat → List Match
  | [], _ => []
  | p :: rest, n =>
      { id := "match-1-bye-" ++ p.id, participant1 := some p,
        winner := some p, round := 1, matchNumber := n }
        :: mkByeMatches rest (n + 1)

/-- Models the shared subsequent-round loop
`while (currentRoundMatchesCount > 1)`, which pushes
`Math.ceil(c / 2)` participant-free placeholder matches numbered from 1 for
each round, then halves the count. `tag` is the id stem (`"match-"` in
`generateFixturesBracket`, `"knockout-"` in `generateGroupStage`). -/
def genRounds (tag : String) (c round : Nat) : List Match :=
  if h : 1 < c then
    ((List.range ((c + 1) / 2)).map fun i =>
      { id := tag ++ toString round ++ "-" ++ toString (i + 1),
        round := round, matchNumber := i + 1 })
      ++ genRounds tag ((c + 1) / 2) (round + 1)
  else []
termination_by c
decreasing_by omega

/-- Embedding of `generateFixturesBracket`: sort a copy of the input by seed,
give the first `byeCount` sorted participants a resolved bye match each, pair
the rest sequentially into round-1 matches, then append placeholder rounds
that halve until a single final remains. -/
def generateFixturesBracket (participants : List Participant) : List Match :=
  let sorted := sortBySeed participants
  let byes := byeCount participants.length
  let playMatches := mkPlayMatches (sorted.drop byes) 1
  let round1 := playMatches ++ mkByeMatches (sorted.take byes) (playMatches.length + 1)
  round1 ++ genRounds "match-" round1.length 2

/-- Models `Math.min(4, Math.max(1, Math.floor(totalParticipants / 4)))`. -/
def groupCountOf (n : Nat) : Nat := min 4 (max 1 (n / 4))

/-- Models `String.fromCharCode(65 + i)`: the group labels A, B, C, D. -/
def groupName (i : Nat) : String := (Char.ofNat (65 + i)).toString

/-- Models the `participants.forEach((participant, index) => ...)` loop that
pushes the participant at index `index` onto group `index % groupCount`:
group `g` receives, in order, exactly the elements whose index is `g` modulo
`G`. `i` is the index of the list head. -/
def assignByIndex (G g : Nat) : List Participant → Nat → List Participant
  | [], _ => []
  | p :: rest, i =>
      if i % G = g then p :: assignByIndex G g rest (i + 1)
      else assignByIndex G g rest (i + 1)

/-- Models one iteration of the outer round-robin loop: participant `p` is
paired with every later participant `q`, pushing
`{ participant1: p, participant2: q, round: 1, matchNumber }` with the
group-wide match counter `n`. -/
def mkRRBlock (gname : String) (p : Participant) : List Participant → Nat → List Match
  | [], _ => []
  | q :: qs, n =>
      { id := "group-" ++ gname ++ "-match-" ++ toString n,
        participant1 := some p, participant2 := some q,
        round := 1, matchNumber := n }
        :: mkRRBlock gname p qs (n + 1)

/-- Models the nested loops `for i ... for j = i+1 ...` generating the full
round-robin match list of one group, with `matchNumber` starting at `n`. -/
def rrMatches (gname : String) : List Participant → Nat → List Match
  | [], _ => []
  | p :: rest, n => mkRRBlock gname p rest n ++ rrMatches gname rest (n + rest.length)

/-- Embedding of `generateGroupStage`: distribute participants round-robin
into `min(4, max(1, ⌊N / 4⌋))` groups named A, B, C, D, build each group's
round-robin match list, and build a participant-free knockout skeleton for
`groupCount * 2` qualifiers. -/
def generateGroupStage (participants : List Participant) : GroupStageResult :=
  let G := groupCountOf participants.length
  let groups := (List.range G).map fun i =>
    let parts := assignByIndex G i participants 0
    { name := groupName i, participants := parts,
      matchList := rrMatches (groupName i) parts 1 : Group }
  let totalQualifiers := G * 2
  let knockoutBracket :=
    if 2 ≤ totalQualifiers then
      ((List.range (totalQualifiers / 2)).map fun i =>
        { id := "knockout-1-" ++ toString (i + 1),
          round := 1, matchNumber := i + 1 : Match })
        ++ genRounds "knockout-" (totalQualifiers / 2) 2
    else []
  { groups := groups, knockoutBracket := knockoutBracket }

/-! Statement-level helpers used to express the claims. -/

/-- The `(round, matchNumber)` pairs of a match list. -/
def pairsRM (ms : List Match) : List (Nat × Nat) := ms.map fun m => (m.round, m.matchNumber)

/-- Round-1 matches awaiting play (no winner assigned). -/
def round1Plays (ms : List Match) : List Match :=
  ms.filter fun m => m.round == 1 && m.winner.isNone

/-- Round-1 bye matches (winner pre-assigned). -/
def round1Byes (ms : List Match) : List Match :=
  ms.filter fun m => m.round == 1 && m.winner.isSome

/-- The spec's round-1 slot count: play matches contribute two slots each,
bye matches one. -/
def round1Slots (ms : List Match) : Nat :=
  2 * (round1Plays ms).length + (round1Byes ms).length

/-- The fields of a play match that the pairing claim constrains. -/
def playFields (m : Match) : Option Participant × Option Participant × Nat :=
  (m.participant1, m.participant2, m.matchNumber)

/-- The pairing asserted by the spec: sorted-order index 0 with 1, 2 with 3,
…, with `matchNumber` counting up from `n`; participants only come in
complete pairs. -/
def claimedPairs : List Participant → Nat → List (Option Participant × Option Participant × Nat)
  | p :: q :: rest, n => (some p, some q, n) :: claimedPairs rest (n + 1)
  | _, _ => []

/-- Claim C3 as stated: after sorting ascending by seed, the bye matches are
resolved byes for exactly the `byeCount` lowest-seed participants, and the
round-1 play matches pair the remaining participants sequentially with match
numbers counting from 1. -/
def c3spec (ps : List Participant) : Prop :=
  (round1Plays (generateFixturesBracket ps)).map playFields
      = claimedPairs ((sortBySeed ps).drop (byeCount ps.length)) 1
    ∧ (round1Byes (generateFixturesBracket ps)).map Match.participant1
      = ((sortBySeed ps).take (byeCount ps.length)).map some
    ∧ ∀ m ∈ round1Byes (generateFixturesBracket ps),
        m.participant2 = none ∧ m.winner = m.participant1

/-- Number of distinct `round` values occurring in a match list. -/
def distinctRoundCount (ms : List Match) : Nat := ((ms.map Match.round).toFinset).card

/-- Number of matches of a list that pit `a` against `b` (in either slot
order). -/
def pairCount (ms : List Match) (a b : Participant) : Nat :=
  ms.countP fun m =>
    decide ((m.participant1 = some a ∧ m.participant2 = some b)
      ∨ (m.participant1 = some b ∧ m.participant2 = some a))

/-- Number of matches of a list belonging to round `r`. -/
def roundCount (ms : List Match) (r : Nat) : Nat :=
  (ms.filter fun m => m.round == r).length

/-- The spec's knockout sizing sequence: `halveSeq c k` is the match count of
the `k`-th round after a first round of `c` matches, each round holding
`ceil` of half the previous count until a single final remains, and `0` once
the bracket has ended. -/
def halveSeq : Nat → Nat → Nat
  | c, 0 => c
  | c, k + 1 => halveSeq (if 1 < c then (c + 1) / 2 else 0) k

/-- Number of placeholder rounds `genRounds` emits after a round of `c`
matches. -/
def roundsCount (c : Nat) : Nat :=
  if h : 1 < c then 1 + roundsCount ((c + 1) / 2) else 0
termination_by c
decreasing_by omega

/-- State of the two arrays `generateFixturesBracket` can reach: the caller's
`participants` array and the working array `participantsForFirstRound`. -/
structure FixturesArrays where
  caller : List Participant
  working : List Participant
deriving DecidableEq

/-- The array operations `generateFixturesBracket` performs, in order:
`[...participants]` allocates `working` as a fresh copy of the caller's
array, and `working.sort(...)` then sorts that copy in place. No other
statement of the function writes to either array; in particular the caller's
array is never written. -/
def fixturesArrayOps (ps : List Participant) : FixturesArrays :=
  let h0 : FixturesArrays := { caller := ps, working := ps }
  { h0 with working := sortBySeed h0.working }

/-- The caller's `participants` array as `generateGroupStage` leaves it: the
function reads the array once via `participants.forEach` (pushing the read
references onto the per-group arrays) and never writes to it. -/
def groupStageCallerArray (ps : List Participant) : List Participant := ps

/-! Concrete inputs used by counterexamples and witnesses. -/

def ps1 : List Participant := [⟨"1", "Ann", 1⟩]

def ps3 : List Participant :=
  [⟨"1", "Ann", 1⟩, ⟨"2", "Bob", 2⟩, ⟨"3", "Cyd", 3⟩]

def ps5 : List Participant :=
  [⟨"1", "Ann", 1⟩, ⟨"2", "Bob", 2⟩, ⟨"3", "Cyd", 3⟩, ⟨"4", "Dee", 4⟩, ⟨"5", "Eve", 5⟩]

def ps6 : List Participant :=
  [⟨"1", "Ann", 1⟩, ⟨"2", "Bob", 2⟩, ⟨"3", "Cyd", 3⟩, ⟨"4", "Dee", 4⟩,
   ⟨"5", "Eve", 5⟩, ⟨"6", "Fay", 6⟩]

/-! Basic facts about the power-of-two loop. -/

theorem powerOf2From_ge (p n : Nat) (hp : 0 < p) : n ≤ powerOf2From p n := by
  induction p, n using powerOf2From.induct with
  | case1 p n h ih => rw [powerOf2From, dif_pos h]; exact ih (by omega)
  | case2 p n h => rw [powerOf2From, dif_neg h]; omega

theorem powerOf2From_lt (p n : Nat) (hp : p < 2 * n) : powerOf2From p n < 2 * n := by
  induction p, n using powerOf2From.induct with
  | case1 p n h ih => rw [powerOf2From, dif_pos h]; exact ih (by omega)
  | case2 p n h => rw [powerOf2From, dif_neg h]; omega

theorem powerOf2From_pow (p n : Nat) (hp : ∃ k, p = 2 ^ k) :
    ∃ k, powerOf2From p n = 2 ^ k := by
  induction p, n using powerOf2From.induct with
  | case1 p n h ih =>
      rw [powerOf2From, dif_pos h]
      apply ih
      obtain ⟨k, rfl⟩ := hp
      exact ⟨k + 1, by ring⟩
  | case2 p n h => rw [powerOf2From, dif_neg h]; exact hp

theorem nextPowerOfTwo_ge (n : Nat) : n ≤ nextPowerOfTwo n :=
  powerOf2From_ge 1 n (by omega)

theorem nextPowerOfTwo_lt (n : Nat) (h : 1 ≤ n) : nextPowerOfTwo n < 2 * n :=
  powerOf2From_lt 1 n (by omega)

theorem nextPowerOfTwo_pow (n : Nat) : ∃ k, nextPowerOfTwo n = 2 ^ k :=
  powerOf2From_pow 1 n ⟨0, rfl⟩

theorem nextPowerOfTwo_even (n : Nat) (h : 2 ≤ n) : 2 ∣ nextPowerOfTwo n := by
  obtain ⟨k, hk⟩ := nextPowerOfTwo_pow n
  have h2 : 2 ≤ nextPowerOfTwo n := le_trans h (nextPowerOfTwo_ge n)
  cases k with
  | zero => rw [hk] at h2 ⊢; omega
  | succ k => rw [hk, pow_succ]; exact ⟨2 ^ k, by ring⟩

/-! The seed sort is a sorted permutation of its input. -/

theorem insertBySeed_perm (p : Participant) (l : List Participant) :
    (insertBySeed p l).Perm (p :: l) := by
  induction l with
  | nil => simp [insertBySeed]
  | cons q qs ih =>
      rw [insertBySeed]
      split
      · exact List.Perm.refl _
      · exact (ih.cons q).trans (List.Perm.swap p q qs)

theorem sortBySeed_perm : ∀ l : List Participant, (sortBySeed l).Perm l
  | [] => by simp [sortBySeed]
  | p :: ps => by
      rw [sortBySeed]
      exact (insertBySeed_perm p (sortBySeed ps)).trans ((sortBySeed_perm ps).cons p)

theorem length_sortBySeed (l : List Participant) : (sortBySeed l).length = l.length :=
  (sortBySeed_perm l).length_eq

theorem insertBySeed_sorted (p : Participant) (l : List Participant)
    (h : l.Pairwise fun a b => a.seed ≤ b.seed) :
    (insertBySeed p l).Pairwise fun a b => a.seed ≤ b.seed := by
  induction l with
  | nil => simp [insertBySeed]
  | cons q qs ih =>
      rw [List.pairwise_cons] at h
      rw [insertBySeed]
      split
      · rename_i hpq
        rw [List.pairwise_cons]
        refine ⟨?_, List.pairwise_cons.mpr h⟩
        intro x hx
        rcases List.mem_cons.mp hx with rfl | hx
        · exact hpq
        · exact le_trans hpq (h.1 x hx)
      · rename_i hpq
        rw [List.pairwise_cons]
        refine ⟨?_, ih h.2⟩
        intro x hx
        rcases List.mem_cons.mp ((insertBySeed_perm p qs).mem_iff.mp hx) with rfl | hx2
        · omega
        · exact h.1 x hx2

theorem sortBySeed_sorted : ∀ l : List Participant,
    (sortBySeed l).Pairwise fun a b => a.seed ≤ b.seed
  | [] => by simp [sortBySeed]
  | p :: ps => by
      rw [sortBySeed]
      exact insertBySeed_sorted p _ (sortBySeed_sorted ps)

/-! Structure of the round-1 play matches. -/

theorem mkPlayMatches_mem : ∀ (l : List Participant) (n : Nat),
    ∀ m ∈ mkPlayMatches l n, m.round = 1 ∧ m.winner = none
  | [], _ => by simp [mkPlayMatches]
  | [p], n => by simp [mkPlayMatches]
  | p :: q :: rest, n => by
      intro m hm
      simp only [mkPlayMatches, List.mem_cons] at hm
      rcases hm with rfl | hm
      · exact ⟨rfl, rfl⟩
      · exact mkPlayMatches_mem rest (n + 1) m hm

theorem length_mkPlayMatches : ∀ (l : List Participant) (n : Nat),
    (mkPlayMatches l n).length = (l.length + 1) / 2
  | [], n => by simp [mkPlayMatches]
  | [p], n => by simp [mkPlayMatches]
  | p :: q :: rest, n => by
      simp only [mkPlayMatches, List.length_cons]
      rw [length_mkPlayMatches rest (n + 1)]
      omega

theorem map_matchNumber_mkPlayMatches : ∀ (l : List Participant) (n : Nat),
    (mkPlayMatches l n).map Match.matchNumber = List.range' n ((l.length + 1) / 2)
  | [], n => by simp [mkPlayMatches]
  | [p], n => by simp [mkPlayMatches]
  | p :: q :: rest, n => by
      simp only [mkPlayMatches, List.map_cons]
      rw [map_matchNumber_mkPlayMatches rest (n + 1)]
      have h2 : ((p :: q :: rest).length + 1) / 2 = (rest.length + 1) / 2 + 1 := by
        simp only [List.length_cons]; omega
      rw [h2, List.range'_succ]

theorem map_playFields_mkPlayMatches : ∀ (l : List Participant) (n : Nat),
    l.length % 2 = 0 →
    (mkPlayMatches l n).map playFields = claimedPairs l n
  | [], n, _ => by simp [mkPlayMatches, claimedPairs]
  | [p], n, h => by simp at h
  | p :: q :: rest, n, h => by
      simp only [mkPlayMatches, List.map_cons, claimedPairs]
      rw [map_playFields_mkPlayMatches rest (n + 1) (by simp only [List.length_cons] at h; omega)]
      simp [playFields]

/-! Structure of the round-1 bye matches. -/

theorem mkByeMatches_mem : ∀ (l : List Participant) (n : Nat),
    ∀ m ∈ mkByeMatches l n,
      m.round = 1 ∧ m.participant2 = none ∧ m.winner = m.participant1 ∧ m.winner.isSome
  | [], _ => by simp [mkByeMatches]
  | p :: rest, n => by
      intro m hm
      simp only [mkByeMatches, List.mem_cons] at hm
      rcases hm with rfl | hm
      · exact ⟨rfl, rfl, rfl, rfl⟩
      · exact mkByeMatches_mem rest (n + 1) m hm

theorem length_mkByeMatches : ∀ (l : List Participant) (n : Nat),
    (mkByeMatches l n).length = l.length
  | [], n => by simp [mkByeMatches]
  | p :: rest, n => by
      simp only [mkByeMatches, List.length_cons]
      rw [length_mkByeMatches rest (n + 1)]

theorem map_matchNumber_mkByeMatches : ∀ (l : List Participant) (n : Nat),
    (mkByeMatches l n).map Match.matchNumber = List.range' n l.length
  | [], n => by simp [mkByeMatches]
  | p :: rest, n => by
      simp only [mkByeMatches, List.map_cons, List.length_cons]
      rw [map_matchNumber_mkByeMatches rest (n + 1), List.range'_succ]

theorem map_participant1_mkByeMatches : ∀ (l : List Participant) (n : Nat),
    (mkByeMatches l n).map Match.participant1 = l.map some
  | [], n => by simp [mkByeMatches]
  | p :: rest, n => by
      simp only [mkByeMatches, List.map_cons]
      rw [map_participant1_mkByeMatches rest (n + 1)]

/-! Structure of the placeholder rounds produced by the shared halving loop. -/

theorem genRounds_mem (tag : String) (c r : Nat) :
    ∀ m ∈ genRounds tag c r,
      m.participant1 = none ∧ m.participant2 = none ∧ m.winner = none ∧
      r ≤ m.round ∧ 1 ≤ m.matchNumber := by
  rw [genRounds]
  split
  · intro m hm
    rcases List.mem_append.mp hm with hm | hm
    · obtain ⟨i, hi, rfl⟩ := List.mem_map.mp hm
      exact ⟨rfl, rfl, rfl, le_refl r, Nat.le_add_left 1 i⟩
    · have h2 := genRounds_mem tag ((c + 1) / 2) (r + 1) m hm
      exact ⟨h2.1, h2.2.1, h2.2.2.1, by omega, h2.2.2.2.2⟩
  · intro m hm
    simp at hm
termination_by c
decreasing_by omega

theorem genRounds_pairs_nodup (tag : String) (c r : Nat) :
    (pairsRM (genRounds tag c r)).Nodup := by
  rw [genRounds]
  split
  · rename_i h
    rw [pairsRM, List.map_append, List.nodup_append]
    refine ⟨?_, genRounds_pairs_nodup tag ((c + 1) / 2) (r + 1), ?_⟩
    · rw [List.map_map]
      refine List.Nodup.map ?_ (List.nodup_range _)
      intro a b hab
      simpa using hab
    · intro x hx hx2
      rw [List.map_map] at hx
      obtain ⟨i, hi, rfl⟩ := List.mem_map.mp hx
      obtain ⟨m, hm, hq⟩ := List.mem_map.mp hx2
      have h3 := (genRounds_mem tag ((c + 1) / 2) (r + 1) m hm).2.2.2.1
      have h4 : m.round = r := congrArg Prod.fst hq
      omega
  · simp [pairsRM]
termination_by c
decreasing_by omega

theorem halveSeq_zero : ∀ k, halveSeq 0 k = 0
  | 0 => rfl
  | k + 1 => by rw [halveSeq, if_neg (by omega)]; exact halveSeq_zero k

theorem genRounds_roundCount_lt (tag : String) (c r x : Nat) (h : x < r) :
    roundCount (genRounds tag c r) x = 0 := by
  rw [roundCount]
  have h2 : (genRounds tag c r).filter (fun m => m.round == x) = [] := by
    rw [List.filter_eq_nil_iff]
    intro m hm
    have h3 := (genRounds_mem tag c r m hm).2.2.2.1
    simp only [beq_iff_eq]
    omega
  rw [h2]
  rfl

theorem genRounds_roundCount (tag : String) (c r k : Nat) :
    roundCount (genRounds tag c r) (r + k) = halveSeq c (k + 1) := by
  rw [genRounds]
  split
  · rename_i h
    have hseq : halveSeq c (k + 1) = halveSeq ((c + 1) / 2) k := by
      rw [halveSeq, if_pos h]
    rw [hseq, roundCount, List.filter_append, List.length_append]
    cases k with
    | zero =>
        simp only [Nat.add_zero]
        have hrec : roundCount (genRounds tag ((c + 1) / 2) (r + 1)) r = 0 :=
          genRounds_roundCount_lt tag ((c + 1) / 2) (r + 1) r (by omega)
        rw [roundCount] at hrec
        rw [hrec, Nat.add_zero]
        have hall : ((List.range ((c + 1) / 2)).map fun i =>
            ({ id := tag ++ toString r ++ "-" ++ toString (i + 1),
               round := r, matchNumber := i + 1 } : Match)).filter
              (fun m => m.round == r)
            = (List.range ((c + 1) / 2)).map fun i =>
              ({ id := tag ++ toString r ++ "-" ++ toString (i + 1),
                 round := r, matchNumber := i + 1 } : Match) := by
          rw [List.filter_eq_self]
          intro m hm
          obtain ⟨i, hi, rfl⟩ := List.mem_map.mp hm
          simp
        rw [hall, List.length_map, List.length_range, halveSeq]
    | succ k' =>
        have hblock : ((List.range ((c + 1) / 2)).map fun i =>
            ({ id := tag ++ toString r ++ "-" ++ toString (i + 1),
               round := r, matchNumber := i + 1 } : Match)).filter
              (fun m => m.round == r + (k' + 1)) = [] := by
          rw [List.filter_eq_nil_iff]
          intro m hm
          obtain ⟨i, hi, rfl⟩ := List.mem_map.mp hm
          simp only [beq_iff_eq]
          omega
        rw [hblock]
        have hrec := genRounds_roundCount tag ((c + 1) / 2) (r + 1) k'
        rw [roundCount] at hrec
        have harith : r + (k' + 1) = (r + 1) + k' := by omega
        rw [harith, hrec]
        simp
  · rename_i h
    have hc : c = 0 ∨ c = 1 := by omega
    have hz : halveSeq c (k + 1) = 0 := by
      rw [halveSeq, if_neg h]
      exact halveSeq_zero k
    rw [hz]
    simp [roundCount]
termination_by c
decreasing_by omega

theorem halveSeq_reaches_one (G : Nat) (hG : 1 ≤ G) :
    ∃ k, halveSeq G k = 1 ∧ ∀ j, k < j → halveSeq G j = 0 := by
  rcases Nat.lt_or_ge G 2 with h2 | h2
  · have hG1 : G = 1 := by omega
    subst hG1
    refine ⟨0, rfl, ?_⟩
    intro j hj
    obtain ⟨j', rfl⟩ : ∃ j', j = j' + 1 := ⟨j - 1, by omega⟩
    rw [halveSeq, if_neg (by omega)]
    exact halveSeq_zero j'
  · obtain ⟨k', hk1, hk2⟩ := halveSeq_reaches_one ((G + 1) / 2) (by omega)
    refine ⟨k' + 1, ?_, ?_⟩
    · rw [halveSeq, if_pos (by omega)]
      exact hk1
    · intro j hj
      obtain ⟨j', rfl⟩ : ∃ j', j = j' + 1 := ⟨j - 1, by omega⟩
      rw [halveSeq, if_pos (by omega)]
      exact hk2 j' (by omega)
termination_by G
decreasing_by omega

/-! Count and extent of the placeholder rounds. -/

theorem roundsCount_two_pow : ∀ k, roundsCount (2 ^ k) = k
  | 0 => by rw [pow_zero, roundsCount, dif_neg (by omega)]
  | k + 1 => by
      have h2 : 1 < 2 ^ (k + 1) := by
        have := Nat.one_le_two_pow (n := k)
        rw [pow_succ]
        omega
      have hh : (2 ^ (k + 1) + 1) / 2 = 2 ^ k := by
        have h1 : 1 ≤ 2 ^ k := Nat.one_le_two_pow
        rw [pow_succ]
        omega
      rw [roundsCount, dif_pos h2, hh, roundsCount_two_pow k]
      omega

theorem genRounds_rounds_toFinset (tag : String) (c r : Nat) :
    ((genRounds tag c r).map Match.round).toFinset = Finset.Ico r (r + roundsCount c) := by
  rw [genRounds, roundsCount]
  split
  · rename_i h
    rw [List.map_append, List.toFinset_append, List.map_map,
      genRounds_rounds_toFinset tag ((c + 1) / 2) (r + 1)]
    have hnext : 1 ≤ (c + 1) / 2 := by omega
    ext x
    simp only [Finset.mem_union, List.mem_toFinset, List.mem_map, List.mem_range,
      Function.comp_apply, Finset.mem_Ico]
    constructor
    · rintro (⟨i, hi, rfl⟩ | hx) <;> omega
    · intro hx
      rcases Nat.eq_or_lt_of_le hx.1 with heq | hlt
      · exact Or.inl ⟨0, by omega, heq⟩
      · exact Or.inr ⟨by omega, by omega⟩
  · rename_i h
    simp
termination_by c
decreasing_by omega

/-! Decomposition of the single-elimination bracket. -/

theorem byeCount_eq (n : Nat) : byeCount n = nextPowerOfTwo n - n := by
  rw [byeCount]
  split
  · rfl
  · have := nextPowerOfTwo_ge n
    omega

theorem generateFixturesBracket_eq (ps : List Participant) :
    generateFixturesBracket ps =
      (mkPlayMatches ((sortBySeed ps).drop (byeCount ps.length)) 1
          ++ mkByeMatches ((sortBySeed ps).take (byeCount ps.length))
            ((mkPlayMatches ((sortBySeed ps).drop (byeCount ps.length)) 1).length + 1))
        ++ genRounds "match-"
            (mkPlayMatches ((sortBySeed ps).drop (byeCount ps.length)) 1
              ++ mkByeMatches ((sortBySeed ps).take (byeCount ps.length))
                ((mkPlayMatches ((sortBySeed ps).drop (byeCount ps.length)) 1).length + 1)).length
            2 := rfl

theorem filter_play_mkPlayMatches (l : List Participant) (n : Nat) :
    (mkPlayMatches l n).filter (fun m => m.round == 1 && m.winner.isNone)
      = mkPlayMatches l n := by
  rw [List.filter_eq_self]
  intro m hm
  have h := mkPlayMatches_mem l n m hm
  simp [h.1, h.2]

theorem filter_play_mkByeMatches (l : List Participant) (n : Nat) :
    (mkByeMatches l n).filter (fun m => m.round == 1 && m.winner.isNone) = [] := by
  rw [List.filter_eq_nil_iff]
  intro m hm
  have h := (mkByeMatches_mem l n m hm).2.2.2
  simp only [Bool.and_eq_true, beq_iff_eq, not_and]
  intro _
  cases hw : m.winner with
  | none => rw [hw] at h; simp at h
  | some q => simp

theorem filter_play_genRounds (tag : String) (c r : Nat) (hr : 2 ≤ r) :
    (genRounds tag c r).filter (fun m => m.round == 1 && m.winner.isNone) = [] := by
  rw [List.filter_eq_nil_iff]
  intro m hm
  have h := (genRounds_mem tag c r m hm).2.2.2.1
  simp only [Bool.and_eq_true, beq_iff_eq, not_and]
  intro h1
  omega

theorem filter_bye_mkPlayMatches (l : List Participant) (n : Nat) :
    (mkPlayMatches l n).filter (fun m => m.round == 1 && m.winner.isSome) = [] := by
  rw [List.filter_eq_nil_iff]
  intro m hm
  have h := (mkPlayMatches_mem l n m hm).2
  simp [h]

theorem filter_bye_mkByeMatches (l : List Participant) (n : Nat) :
    (mkByeMatches l n).filter (fun m => m.round == 1 && m.winner.isSome)
      = mkByeMatches l n := by
  rw [List.filter_eq_self]
  intro m hm
  have h := mkByeMatches_mem l n m hm
  simp [h.1, h.2.2.2]

theorem filter_bye_genRounds (tag : String) (c r : Nat) (hr : 2 ≤ r) :
    (genRounds tag c r).filter (fun m => m.round == 1 && m.winner.isSome) = [] := by
  rw [List.filter_eq_nil_iff]
  intro m hm
  have h := (genRounds_mem tag c r m hm).2.2.2.1
  simp only [Bool.and_eq_true, beq_iff_eq, not_and]
  intro h1
  omega

theorem round1Plays_fixtures (ps : List Participant) :
    round1Plays (generateFixturesBracket ps)
      = mkPlayMatches ((sortBySeed ps).drop (byeCount ps.length)) 1 := by
  rw [generateFixturesBracket_eq, round1Plays, List.filter_append, List.filter_append,
    filter_play_mkPlayMatches, filter_play_mkByeMatches,
    filter_play_genRounds _ _ _ (le_refl 2)]
  simp

theorem round1Byes_fixtures (ps : List Participant) :
    round1Byes (generateFixturesBracket ps)
      = mkByeMatches ((sortBySeed ps).take (byeCount ps.length))
          ((mkPlayMatches ((sortBySeed ps).drop (byeCount ps.length)) 1).length + 1) := by
  rw [generateFixturesBracket_eq, round1Byes, List.filter_append, List.filter_append,
    filter_bye_mkPlayMatches, filter_bye_mkByeMatches,
    filter_bye_genRounds _ _ _ (le_refl 2)]
  simp

theorem toFinset_of_const (l : List Nat) (a : Nat) (hne : l ≠ []) (h : ∀ x ∈ l, x = a) :
    l.toFinset = {a} := by
  ext x
  simp only [List.mem_toFinset, Finset.mem_singleton]
  constructor
  · exact fun hx => h x hx
  · rintro rfl
    cases l with
    | nil => exact absurd rfl hne
    | cons y ys => exact List.mem_cons.mpr (Or.inl (h y (List.mem_cons_self y ys)).symm)

/-- Claim C1, counterexample. The claim asserts that for the one-element input
`ps1` the generator returns one round-1 match numbered 1 whose `participant1`
is the participant and whose `winner` equals that participant. In the code
`byes = powerOf2 - total = 0` when `total = 1`, so the lone participant falls
into the pairing loop and the single emitted match has no winner (and no
`participant2`); the claimed output shape is therefore impossible. -/
theorem c1_counterexample :
    ¬ ∃ m, generateFixturesBracket ps1 = [m] ∧ m.round = 1 ∧ m.matchNumber = 1
        ∧ m.participant1 = some ⟨"1", "Ann", 1⟩
        ∧ m.winner = some ⟨"1", "Ann", 1⟩ := by
  rintro ⟨m, hm, -, -, -, hw⟩
  have heval : generateFixturesBracket ps1
      = [{ id := "match-1-1", participant1 := some ⟨"1", "Ann", 1⟩,
           round := 1, matchNumber := 1 }] := by
    simp [generateFixturesBracket, sortBySeed, insertBySeed, byeCount, nextPowerOfTwo,
      powerOf2From, mkPlayMatches, mkByeMatches, genRounds, ps1]
    decide
  rw [heval] at hm
  injection hm with h1 h2
  rw [← h1] at hw
  simp at hw

/-- Claim C1, amended: for a one-element input the generator returns exactly
one match with round 1 and matchNumber 1 whose `participant1` is that
participant, but with no `participant2` and no `winner` (the participant is
placed alone in an unresolved play match rather than being given a bye), and
no matches in any later round. -/
theorem c1_single_participant_amended (p : Participant) :
    generateFixturesBracket [p]
      = [{ id := "match-1-1", participant1 := some p, round := 1, matchNumber := 1 }] := by
  simp [generateFixturesBracket, sortBySeed, insertBySeed, byeCount, nextPowerOfTwo,
    powerOf2From, mkPlayMatches, mkByeMatches, genRounds]
  decide

/-- Claim C2, counterexample. For `ps3` (three participants, seeds 1, 2, 3)
the bracket has one round-1 play match and one bye, so the slot count
`2 * plays + byes = 3`, while the smallest power of two at least 3 is 4. -/
theorem c2_counterexample :
    ¬ round1Slots (generateFixturesBracket ps3) = nextPowerOfTwo ps3.length := by
  have h1 : nextPowerOfTwo ps3.length = 4 := by
    simp [ps3, nextPowerOfTwo, powerOf2From]
  have hs : sortBySeed ps3 = ps3 := by simp [sortBySeed, insertBySeed, ps3]
  have hb : byeCount ps3.length = 1 := by
    simp [ps3, byeCount, nextPowerOfTwo, powerOf2From]
  have h2 : round1Slots (generateFixturesBracket ps3) = 3 := by
    rw [round1Slots, round1Plays_fixtures, round1Byes_fixtures, length_mkPlayMatches,
      length_mkByeMatches, hs, hb]
    simp [ps3]
  rw [h1, h2]
  decide

/-- Claim C2, amended: for every participant list of length at least 2 with
distinct positive seeds, the total number of round-1 slots
(play matches × 2 + bye matches) equals N, the number of participants — not
the smallest power of two ≥ N, which it matches only when N is itself a
power of two. -/
theorem c2_round1_slots_amended (ps : List Participant) (h2 : 2 ≤ ps.length)
    (hseed : (ps.map Participant.seed).Nodup) (hpos : ∀ p ∈ ps, 0 < p.seed) :
    round1Slots (generateFixturesBracket ps) = ps.length := by
  rw [round1Slots, round1Plays_fixtures, round1Byes_fixtures, length_mkPlayMatches,
    length_mkByeMatches, List.length_drop, List.length_take, length_sortBySeed,
    byeCount_eq]
  have hge := nextPowerOfTwo_ge ps.length
  have hlt := nextPowerOfTwo_lt ps.length (by omega)
  have hdvd := nextPowerOfTwo_even ps.length h2
  omega

/-- Claim C2, witness: the amended statement applied at the concrete
three-participant input. -/
theorem c2_witness :
    2 ≤ ps3.length ∧ (ps3.map Participant.seed).Nodup ∧ (∀ p ∈ ps3, 0 < p.seed)
      ∧ round1Slots (generateFixturesBracket ps3) = ps3.length :=
  ⟨by decide, by decide, by decide,
    c2_round1_slots_amended ps3 (by decide) (by decide) (by decide)⟩

/-- Claim C3, counterexample. For the one-element input the sorted remainder
after removing byes has odd length 1, so the code emits a half-filled play
match for the lone participant; the claimed pairing (complete pairs only,
yielding no play match at all for a single leftover) does not hold. -/
theorem c3_counterexample : ¬ c3spec ps1 := by
  intro h
  have h1 := h.1
  rw [round1Plays_fixtures] at h1
  have hb : byeCount ps1.length = 0 := by
    simp [ps1, byeCount, nextPowerOfTwo, powerOf2From]
  have hs : sortBySeed ps1 = ps1 := by simp [sortBySeed, insertBySeed, ps1]
  rw [hb, hs] at h1
  simp [ps1, mkPlayMatches, claimedPairs, playFields] at h1

/-- Claim C3, amended: for every participant list of length at least 2 with
distinct positive seeds, the generator gives byes to exactly the
`byeCount = P − N` lowest-seed participants after sorting ascending by seed
(each bye a round-1 match with only `participant1` set and `winner` equal to
it), and pairs the remaining participants sequentially in sorted order into
round-1 matches whose matchNumber counts up from 1. At N = 1 the pairing
clause fails because the lone participant is emitted as a half-filled play
match. -/
theorem c3_bye_and_pairing_amended (ps : List Participant) (h2 : 2 ≤ ps.length)
    (hseed : (ps.map Participant.seed).Nodup) (hpos : ∀ p ∈ ps, 0 < p.seed) :
    c3spec ps := by
  refine ⟨?_, ?_, ?_⟩
  · rw [round1Plays_fixtures]
    apply map_playFields_mkPlayMatches
    rw [List.length_drop, length_sortBySeed, byeCount_eq]
    have hge := nextPowerOfTwo_ge ps.length
    have hlt := nextPowerOfTwo_lt ps.length (by omega)
    have hdvd := nextPowerOfTwo_even ps.length h2
    omega
  · rw [round1Byes_fixtures, map_participant1_mkByeMatches]
  · rw [round1Byes_fixtures]
    intro m hm
    have h := mkByeMatches_mem _ _ m hm
    exact ⟨h.2.1, h.2.2.1⟩

/-- Claim C3, witness: the amended statement applied at the concrete
three-participant input. -/
theorem c3_witness :
    2 ≤ ps3.length ∧ (ps3.map Participant.seed).Nodup ∧ (∀ p ∈ ps3, 0 < p.seed)
      ∧ c3spec ps3 :=
  ⟨by decide, by decide, by decide,
    c3_bye_and_pairing_amended ps3 (by decide) (by decide) (by decide)⟩

/-- Claim C4, counterexample. For the one-element input the bracket consists
of a single round-1 match, so one distinct round value occurs, while
`ceil(log2 P) = ceil(log2 1) = 0`. -/
theorem c4_counterexample :
    ¬ distinctRoundCount (generateFixturesBracket ps1)
        = Nat.clog 2 (nextPowerOfTwo ps1.length) := by
  have h1 : nextPowerOfTwo ps1.length = 1 := by
    simp [ps1, nextPowerOfTwo, powerOf2From]
  have heval : generateFixturesBracket ps1
      = [{ id := "match-1-1", participant1 := some ⟨"1", "Ann", 1⟩,
           round := 1, matchNumber := 1 }] := by
    simp [generateFixturesBracket, sortBySeed, insertBySeed, byeCount, nextPowerOfTwo,
      powerOf2From, mkPlayMatches, mkByeMatches, genRounds, ps1]
    decide
  rw [h1, heval, Nat.clog_one_right, distinctRoundCount]
  decide

/-- Claim C4, amended: for every participant list of length N ≥ 2 with
distinct positive seeds, the number of distinct round values in the bracket
equals `ceil(log2 P)` where P is the smallest power of two ≥ N; at N = 1 the
bracket has one round while `ceil(log2 1) = 0`. -/
theorem c4_round_count_amended (ps : List Participant) (h2 : 2 ≤ ps.length)
    (hseed : (ps.map Participant.seed).Nodup) (hpos : ∀ p ∈ ps, 0 < p.seed) :
    distinctRoundCount (generateFixturesBracket ps)
      = Nat.clog 2 (nextPowerOfTwo ps.length) := by
  obtain ⟨k, hk⟩ := nextPowerOfTwo_pow ps.length
  have hge := nextPowerOfTwo_ge ps.length
  have hlt := nextPowerOfTwo_lt ps.length (by omega)
  have hdvd := nextPowerOfTwo_even ps.length h2
  have hk1 : 1 ≤ k := by
    rcases Nat.eq_zero_or_pos k with rfl | h
    · rw [pow_zero] at hk; omega
    · exact h
  have hpow : 2 ^ k = 2 ^ (k - 1) * 2 := by
    rw [← pow_succ]
    congr 1
    omega
  have hlen : (mkPlayMatches ((sortBySeed ps).drop (byeCount ps.length)) 1
        ++ mkByeMatches ((sortBySeed ps).take (byeCount ps.length))
          ((mkPlayMatches ((sortBySeed ps).drop (byeCount ps.length)) 1).length + 1)).length
      = 2 ^ (k - 1) := by
    rw [List.length_append, length_mkPlayMatches, length_mkByeMatches, List.length_drop,
      List.length_take, length_sortBySeed, byeCount_eq]
    omega
  have hne : ((mkPlayMatches ((sortBySeed ps).drop (byeCount ps.length)) 1
        ++ mkByeMatches ((sortBySeed ps).take (byeCount ps.length))
          ((mkPlayMatches ((sortBySeed ps).drop (byeCount ps.length)) 1).length + 1)).map
        Match.round) ≠ [] := by
    intro hcon
    have := congrArg List.length hcon
    rw [List.length_map, hlen, List.length_nil] at this
    have h1 : 1 ≤ 2 ^ (k - 1) := Nat.one_le_two_pow
    omega
  have hconst : ∀ x ∈ (mkPlayMatches ((sortBySeed ps).drop (byeCount ps.length)) 1
        ++ mkByeMatches ((sortBySeed ps).take (byeCount ps.length))
          ((mkPlayMatches ((sortBySeed ps).drop (byeCount ps.length)) 1).length + 1)).map
        Match.round, x = 1 := by
    intro x hx
    obtain ⟨m, hm, rfl⟩ := List.mem_map.mp hx
    rcases List.mem_append.mp hm with hm | hm
    · exact (mkPlayMatches_mem _ _ m hm).1
    · exact (mkByeMatches_mem _ _ m hm).1
  rw [distinctRoundCount, generateFixturesBracket_eq, List.map_append, List.toFinset_append,
    toFinset_of_const _ 1 hne hconst, genRounds_rounds_toFinset, hlen,
    roundsCount_two_pow (k - 1)]
  have hset : ({1} : Finset Nat) ∪ Finset.Ico 2 (2 + (k - 1)) = Finset.Icc 1 k := by
    ext x
    simp only [Finset.mem_union, Finset.mem_singleton, Finset.mem_Ico, Finset.mem_Icc]
    omega
  rw [hset, Nat.card_Icc, hk, Nat.clog_pow 2 k (by omega)]
  omega

/-- Claim C4, witness: the amended statement applied at the concrete
three-participant input (3 participants, P = 4, two rounds). -/
theorem c4_witness :
    2 ≤ ps3.length ∧ (ps3.map Participant.seed).Nodup ∧ (∀ p ∈ ps3, 0 < p.seed)
      ∧ distinctRoundCount (generateFixturesBracket ps3)
        = Nat.clog 2 (nextPowerOfTwo ps3.length) :=
  ⟨by decide, by decide, by decide,
    c4_round_count_amended ps3 (by decide) (by decide) (by decide)⟩

/-- Claim C9: neither generator mutates its input array. The source copies
the participant array (`[...participants]`) before sorting, so the in-place
sort touches only the copy, and the group-stage function only reads the
input; the caller-visible array and every participant's fields are unchanged
after either call. -/
theorem c9_no_input_mutation (ps : List Participant) :
    (fixturesArrayOps ps).caller = ps
    ∧ groupStageCallerArray ps = ps
    ∧ ((fixturesArrayOps ps).caller.map fun p => (p.id, p.name, p.seed))
        = ps.map (fun p => (p.id, p.name, p.seed))
    ∧ ((groupStageCallerArray ps).map fun p => (p.id, p.name, p.seed))
        = ps.map (fun p => (p.id, p.name, p.seed)) :=
  ⟨rfl, rfl, rfl, rfl⟩

/-- Claim C10: both generators are total on the empty list. The fixtures
generator returns no matches, and the group-stage generator returns one empty
group named "A" together with a knockout bracket holding a single
participant-free placeholder match. -/
theorem c10_empty_input :
    generateFixturesBracket [] = []
    ∧ (generateGroupStage []).groups
        = [{ name := "A", participants := [], matchList := [] }]
    ∧ (generateGroupStage []).knockoutBracket
        = [{ id := "knockout-1-1", round := 1, matchNumber := 1 }] := by
  refine ⟨?_, ?_, ?_⟩
  · simp [generateFixturesBracket, sortBySeed, byeCount, nextPowerOfTwo, powerOf2From,
      mkPlayMatches, mkByeMatches, genRounds]
  · simp [generateGroupStage, groupCountOf, assignByIndex, rrMatches, groupName,
      List.range_succ]
    decide
  · simp [generateGroupStage, groupCountOf, List.range_succ]
    simp [genRounds]
    decide

/-! Uniqueness of `(round, matchNumber)` pairs. -/

theorem pairsRM_const_round (ms : List Match) (r : Nat) (h : ∀ m ∈ ms, m.round = r) :
    pairsRM ms = (ms.map Match.matchNumber).map fun k => (r, k) := by
  induction ms with
  | nil => simp [pairsRM]
  | cons m ms ih =>
      rw [pairsRM, List.map_cons, List.map_cons, List.map_cons,
        h m (List.mem_cons_self m ms)]
      congr 1
      exact ih fun m2 hm2 => h m2 (List.mem_cons_of_mem m hm2)

theorem nodup_pairs_round1_append (ms : List Match) (tag : String) (c : Nat)
    (h1 : ∀ m ∈ ms, m.round = 1)
    (h2 : (ms.map Match.matchNumber).Nodup) :
    (pairsRM (ms ++ genRounds tag c 2)).Nodup := by
  rw [pairsRM, List.map_append, List.nodup_append]
  refine ⟨?_, genRounds_pairs_nodup tag c 2, ?_⟩
  · have hconst := pairsRM_const_round ms 1 h1
    rw [pairsRM] at hconst
    rw [hconst]
    exact List.Nodup.map (fun a b hab => by simpa using hab) h2
  · intro x hx hx2
    obtain ⟨m, hm, rfl⟩ := List.mem_map.mp hx
    obtain ⟨m2, hm2, hq⟩ := List.mem_map.mp hx2
    have hr := (genRounds_mem tag c 2 m2 hm2).2.2.2.1
    have h1m := h1 m hm
    have hfst : m2.round = m.round := congrArg Prod.fst hq
    omega

theorem fixtures_round1_matchNumbers (ps : List Participant) :
    ((mkPlayMatches ((sortBySeed ps).drop (byeCount ps.length)) 1
        ++ mkByeMatches ((sortBySeed ps).take (byeCount ps.length))
          ((mkPlayMatches ((sortBySeed ps).drop (byeCount ps.length)) 1).length + 1)).map
      Match.matchNumber)
      = List.range' 1
          ((mkPlayMatches ((sortBySeed ps).drop (byeCount ps.length)) 1).length
            + ((sortBySeed ps).take (byeCount ps.length)).length) := by
  rw [List.map_append, map_matchNumber_mkPlayMatches, map_matchNumber_mkByeMatches]
  have hlen : (mkPlayMatches ((sortBySeed ps).drop (byeCount ps.length)) 1).length
      = (((sortBySeed ps).drop (byeCount ps.length)).length + 1) / 2 :=
    length_mkPlayMatches _ _
  rw [← hlen]
  have harg : (mkPlayMatches ((sortBySeed ps).drop (byeCount ps.length)) 1).length + 1
      = 1 + 1 * (mkPlayMatches ((sortBySeed ps).drop (byeCount ps.length)) 1).length := by
    omega
  rw [harg, List.range'_append]
  congr 1
  omega

/-- Decomposition of the knockout bracket for any input: since
`groupCount ≥ 1` the qualifier test always passes. -/
theorem generateGroupStage_knockout_eq (ps : List Participant) :
    (generateGroupStage ps).knockoutBracket
      = ((List.range ((groupCountOf ps.length * 2) / 2)).map fun i =>
          ({ id := "knockout-1-" ++ toString (i + 1),
             round := 1, matchNumber := i + 1 } : Match))
        ++ genRounds "knockout-" ((groupCountOf ps.length * 2) / 2) 2 := by
  have hG : 1 ≤ groupCountOf ps.length := by
    rw [groupCountOf]
    omega
  show (if 2 ≤ groupCountOf ps.length * 2 then _ else _) = _
  rw [if_pos (by omega)]

theorem generateGroupStage_groups_eq (ps : List Participant) :
    (generateGroupStage ps).groups
      = (List.range (groupCountOf ps.length)).map fun i =>
          { name := groupName i,
            participants := assignByIndex (groupCountOf ps.length) i ps 0,
            matchList := rrMatches (groupName i)
              (assignByIndex (groupCountOf ps.length) i ps 0) 1 } := rfl

/-! Structure of the round-robin match lists. -/

theorem mkRRBlock_mem : ∀ (gname : String) (p : Participant) (l : List Participant) (n : Nat),
    ∀ m ∈ mkRRBlock gname p l n, m.round = 1 ∧ m.winner = none
  | _, _, [], _ => by simp [mkRRBlock]
  | gname, p, q :: qs, n => by
      intro m hm
      simp only [mkRRBlock, List.mem_cons] at hm
      rcases hm with rfl | hm
      · exact ⟨rfl, rfl⟩
      · exact mkRRBlock_mem gname p qs (n + 1) m hm

theorem length_mkRRBlock : ∀ (gname : String) (p : Participant) (l : List Participant) (n : Nat),
    (mkRRBlock gname p l n).length = l.length
  | _, _, [], _ => by simp [mkRRBlock]
  | gname, p, q :: qs, n => by
      simp only [mkRRBlock, List.length_cons]
      rw [length_mkRRBlock gname p qs (n + 1)]

theorem map_matchNumber_mkRRBlock :
    ∀ (gname : String) (p : Participant) (l : List Participant) (n : Nat),
      (mkRRBlock gname p l n).map Match.matchNumber = List.range' n l.length
  | _, _, [], _ => by simp [mkRRBlock]
  | gname, p, q :: qs, n => by
      simp only [mkRRBlock, List.map_cons, List.length_cons]
      rw [map_matchNumber_mkRRBlock gname p qs (n + 1), List.range'_succ]

theorem rrMatches_mem : ∀ (gname : String) (l : List Participant) (n : Nat),
    ∀ m ∈ rrMatches gname l n, m.round = 1 ∧ m.winner = none
  | _, [], _ => by simp [rrMatches]
  | gname, p :: rest, n => by
      intro m hm
      rw [rrMatches] at hm
      rcases List.mem_append.mp hm with hm | hm
      · exact mkRRBlock_mem gname p rest n m hm
      · exact rrMatches_mem gname rest (n + rest.length) m hm

theorem map_matchNumber_rrMatches : ∀ (gname : String) (l : List Participant) (n : Nat),
    (rrMatches gname l n).map Match.matchNumber
      = List.range' n (rrMatches gname l n).length
  | _, [], _ => by simp [rrMatches]
  | gname, p :: rest, n => by
      rw [rrMatches, List.map_append, List.length_append,
        map_matchNumber_mkRRBlock, map_matchNumber_rrMatches gname rest (n + rest.length),
        length_mkRRBlock]
      have harg : n + rest.length = n + 1 * rest.length := by omega
      rw [harg, List.range'_append]
      congr 1
      omega

/-- Claim C5: within each single generated bracket — the fixtures match list,
the knockout bracket, and each group's match list — all
`(round, matchNumber)` pairs are pairwise distinct. -/
theorem c5_pair_uniqueness (ps : List Participant) (hne : ps ≠ [])
    (hseed : (ps.map Participant.seed).Nodup) (hpos : ∀ p ∈ ps, 0 < p.seed) :
    (pairsRM (generateFixturesBracket ps)).Nodup
    ∧ (pairsRM (generateGroupStage ps).knockoutBracket).Nodup
    ∧ ∀ g ∈ (generateGroupStage ps).groups, (pairsRM g.matchList).Nodup := by
  refine ⟨?_, ?_, ?_⟩
  · rw [generateFixturesBracket_eq]
    apply nodup_pairs_round1_append
    · intro m hm
      rcases List.mem_append.mp hm with hm | hm
      · exact (mkPlayMatches_mem _ _ m hm).1
      · exact (mkByeMatches_mem _ _ m hm).1
    · rw [fixtures_round1_matchNumbers]
      exact List.nodup_range' _ _
  · rw [generateGroupStage_knockout_eq]
    apply nodup_pairs_round1_append
    · intro m hm
      obtain ⟨i, hi, rfl⟩ := List.mem_map.mp hm
      rfl
    · rw [List.map_map]
      refine List.Nodup.map ?_ (List.nodup_range _)
      intro a b hab
      simpa using hab
  · intro g hg
    rw [generateGroupStage_groups_eq] at hg
    obtain ⟨i, hi, rfl⟩ := List.mem_map.mp hg
    have hround : ∀ m ∈ rrMatches (groupName i)
        (assignByIndex (groupCountOf ps.length) i ps 0) 1, m.round = 1 :=
      fun m hm => (rrMatches_mem _ _ _ m hm).1
    have hconst := pairsRM_const_round _ 1 hround
    rw [pairsRM] at hconst
    show (pairsRM (rrMatches (groupName i)
      (assignByIndex (groupCountOf ps.length) i ps 0) 1)).Nodup
    rw [pairsRM, hconst, map_matchNumber_rrMatches]
    exact List.Nodup.map (fun a b hab => by simpa using hab) (List.nodup_range' _ _)

/-- Claim C5, witness: the statement applied at the concrete
three-participant input. -/
theorem c5_witness :
    ps3 ≠ [] ∧ (ps3.map Participant.seed).Nodup ∧ (∀ p ∈ ps3, 0 < p.seed)
      ∧ (pairsRM (generateFixturesBracket ps3)).Nodup
      ∧ (pairsRM (generateGroupStage ps3).knockoutBracket).Nodup
      ∧ ∀ g ∈ (generateGroupStage ps3).groups, (pairsRM g.matchList).Nodup := by
  have h := c5_pair_uniqueness ps3 (by decide) (by decide) (by decide)
  exact ⟨by decide, by decide, by decide, h.1, h.2.1, h.2.2⟩

/-! Round-robin completeness: counting the matches between two participants. -/

theorem pairCount_nil (a b : Participant) : pairCount [] a b = 0 := rfl

theorem pairCount_cons (m : Match) (ms : List Match) (a b : Participant) :
    pairCount (m :: ms) a b
      = pairCount ms a b
        + if (m.participant1 = some a ∧ m.participant2 = some b)
            ∨ (m.participant1 = some b ∧ m.participant2 = some a) then 1 else 0 := by
  rw [pairCount, pairCount, List.countP_cons]
  congr 1
  by_cases h : (m.participant1 = some a ∧ m.participant2 = some b)
      ∨ (m.participant1 = some b ∧ m.participant2 = some a) <;> simp [h]

theorem pairCount_append (l1 l2 : List Match) (a b : Participant) :
    pairCount (l1 ++ l2) a b = pairCount l1 a b + pairCount l2 a b := by
  rw [pairCount, pairCount, pairCount, List.countP_append]

theorem pairCount_mkRRBlock :
    ∀ (gname : String) (p : Participant) (qs : List Participant) (n : Nat)
      (a b : Participant), a ≠ b →
      pairCount (mkRRBlock gname p qs n) a b
        = if p = a then qs.count b else if p = b then qs.count a else 0
  | gname, p, [], n, a, b, hab => by
      simp only [mkRRBlock, pairCount_nil, List.count_nil]
      split
      · rfl
      · split <;> rfl
  | gname, p, q :: qs, n, a, b, hab => by
      have ih := pairCount_mkRRBlock gname p qs (n + 1) a b hab
      simp only [mkRRBlock]
      rw [pairCount_cons, ih]
      simp only [Option.some.injEq]
      by_cases hpa : p = a
      · subst hpa
        have hpb : ¬ p = b := hab
        simp only [if_pos rfl, hpb, false_and, or_false, true_and, List.count_cons]
        by_cases hqb : q = b
        · simp [hqb]
        · have hqb2 : ¬ (b == q) = true := by
            simp only [beq_iff_eq]
            exact fun h => hqb h.symm
          simp [hqb, hqb2]
      · by_cases hpb : p = b
        · subst hpb
          simp only [if_neg hpa, if_pos rfl, hpa, false_and, false_or, true_and,
            List.count_cons]
          by_cases hqa : q = a
          · simp [hqa]
          · have hqa2 : ¬ (a == q) = true := by
              simp only [beq_iff_eq]
              exact fun h => hqa h.symm
            simp [hqa, hqa2]
        · simp [hpa, hpb]

theorem pairCount_rrMatches :
    ∀ (gname : String) (l : List Participant) (n : Nat) (a b : Participant),
      a ≠ b → l.Nodup →
      pairCount (rrMatches gname l n) a b = if a ∈ l ∧ b ∈ l then 1 else 0
  | gname, [], n, a, b, hab, _ => by
      simp [rrMatches, pairCount_nil]
  | gname, p :: rest, n, a, b, hab, hnd => by
      obtain ⟨hp_notin, hrest⟩ := List.nodup_cons.mp hnd
      simp only [rrMatches]
      rw [pairCount_append, pairCount_mkRRBlock gname p rest n a b hab,
        pairCount_rrMatches gname rest (n + rest.length) a b hab hrest]
      by_cases hpa : p = a
      · subst hpa
        rw [if_pos rfl, if_neg (fun hc => hp_notin hc.1)]
        by_cases hb : b ∈ rest
        · rw [List.count_eq_one_of_mem hrest hb,
            if_pos ⟨List.mem_cons_self p rest, List.mem_cons_of_mem p hb⟩]
        · rw [List.count_eq_zero_of_not_mem hb, if_neg ?_]
          rintro ⟨-, hbc⟩
          rcases List.mem_cons.mp hbc with rfl | hbc
          · exact hab rfl
          · exact hb hbc
      · by_cases hpb : p = b
        · subst hpb
          rw [if_neg hpa, if_pos rfl, if_neg (fun hc => hp_notin hc.2)]
          by_cases ha : a ∈ rest
          · rw [List.count_eq_one_of_mem hrest ha,
              if_pos ⟨List.mem_cons_of_mem p ha, List.mem_cons_self p rest⟩]
          · rw [List.count_eq_zero_of_not_mem ha, if_neg ?_]
            rintro ⟨hac, -⟩
            rcases List.mem_cons.mp hac with rfl | hac
            · exact hab rfl
            · exact ha hac
        · rw [if_neg hpa, if_neg hpb, Nat.zero_add]
          have hiff : (a ∈ rest ∧ b ∈ rest) ↔ (a ∈ p :: rest ∧ b ∈ p :: rest) := by
            constructor
            · rintro ⟨h1, h2⟩
              exact ⟨List.mem_cons_of_mem p h1, List.mem_cons_of_mem p h2⟩
            · rintro ⟨h1, h2⟩
              rcases List.mem_cons.mp h1 with rfl | h1
              · exact absurd rfl hpa
              · rcases List.mem_cons.mp h2 with rfl | h2
                · exact absurd rfl hpb
                · exact ⟨h1, h2⟩
          rw [if_congr hiff rfl rfl]

theorem length_rrMatches : ∀ (gname : String) (l : List Participant) (n : Nat),
    (rrMatches gname l n).length = l.length * (l.length - 1) / 2
  | _, [], _ => by simp [rrMatches]
  | gname, p :: rest, n => by
      simp only [rrMatches, List.length_append, length_mkRRBlock,
        length_rrMatches gname rest (n + rest.length), List.length_cons,
        Nat.add_sub_cancel]
      rcases Nat.eq_zero_or_pos rest.length with h | h
      · rw [h]
      · obtain ⟨r, hr⟩ : ∃ r, rest.length = r + 1 := ⟨rest.length - 1, by omega⟩
        rw [hr]
        have h2 : (r + 1) * (r + 1 - 1) + (r + 1) * 2 = (r + 1 + 1) * (r + 1) := by
          simp only [Nat.add_sub_cancel]
          ring
        calc r + 1 + (r + 1) * (r + 1 - 1) / 2
            = ((r + 1) * (r + 1 - 1) + (r + 1) * 2) / 2 := by
              rw [Nat.add_mul_div_right _ _ (by omega : 0 < 2)]
              omega
          _ = (r + 1 + 1) * (r + 1) / 2 := by rw [h2]

/-! Distribution of participants into groups. -/

theorem assignByIndex_sublist : ∀ (G g : Nat) (l : List Participant) (i : Nat),
    List.Sublist (assignByIndex G g l i) l
  | G, g, [], i => by simp [assignByIndex]
  | G, g, p :: rest, i => by
      rw [assignByIndex]
      split
      · exact List.Sublist.cons₂ p (assignByIndex_sublist G g rest (i + 1))
      · exact List.Sublist.cons p (assignByIndex_sublist G g rest (i + 1))

theorem assignByIndex_nodup (G g : Nat) (l : List Participant) (i : Nat)
    (h : (l.map Participant.id).Nodup) : (assignByIndex G g l i).Nodup := by
  have hsub := assignByIndex_sublist G g l i
  exact (((hsub.map Participant.id).nodup h).of_map _)

/-- Claim C6: in the output of `generateGroupStage`, each group of size k has
exactly k(k-1)/2 matches, every unordered pair of distinct group members
meets in exactly one match, matchNumber counts up from 1 within the group,
and all group matches have round 1. (Participant lists carry unique ids per
the data model, which the hypothesis records.) -/
theorem c6_round_robin (ps : List Participant) (hne : ps ≠ [])
    (hid : (ps.map Participant.id).Nodup) :
    ∀ g ∈ (generateGroupStage ps).groups,
      g.matchList.length = g.participants.length * (g.participants.length - 1) / 2
      ∧ (∀ a ∈ g.participants, ∀ b ∈ g.participants, a ≠ b →
          pairCount g.matchList a b = 1)
      ∧ g.matchList.map Match.matchNumber = List.range' 1 g.matchList.length
      ∧ ∀ m ∈ g.matchList, m.round = 1 := by
  intro g hg
  rw [generateGroupStage_groups_eq] at hg
  obtain ⟨i, hi, rfl⟩ := List.mem_map.mp hg
  refine ⟨length_rrMatches _ _ _, ?_, map_matchNumber_rrMatches _ _ _,
    fun m hm => (rrMatches_mem _ _ _ m hm).1⟩
  intro a ha b hb hab
  have hnd := assignByIndex_nodup (groupCountOf ps.length) i ps 0 hid
  rw [pairCount_rrMatches _ _ _ a b hab hnd, if_pos ⟨ha, hb⟩]

/-- Claim C6, witness: the statement applied at the concrete six-participant
input (one group of six, fifteen matches). -/
theorem c6_witness :
    ps6 ≠ [] ∧ (ps6.map Participant.id).Nodup
      ∧ ∀ g ∈ (generateGroupStage ps6).groups,
        g.matchList.length = g.participants.length * (g.participants.length - 1) / 2
        ∧ (∀ a ∈ g.participants, ∀ b ∈ g.participants, a ≠ b →
            pairCount g.matchList a b = 1)
        ∧ g.matchList.map Match.matchNumber = List.range' 1 g.matchList.length
        ∧ ∀ m ∈ g.matchList, m.round = 1 :=
  ⟨by decide, by decide, c6_round_robin ps6 (by decide) (by decide)⟩

/-! Group sizes under the index-modulo distribution. -/

/-- Number of indices in the window `[i, i + len)` congruent to `g` mod `G`. -/
def cntMod (G g : Nat) : Nat → Nat → Nat
  | _, 0 => 0
  | i, len + 1 => (if i % G = g then 1 else 0) + cntMod G g (i + 1) len

theorem length_assignByIndex : ∀ (G g : Nat) (l : List Participant) (i : Nat),
    (assignByIndex G g l i).length = cntMod G g i l.length
  | G, g, [], i => by simp [assignByIndex, cntMod]
  | G, g, p :: rest, i => by
      rw [assignByIndex]
      split
      · rename_i h
        simp only [List.length_cons, length_assignByIndex G g rest (i + 1), cntMod,
          if_pos h]
        omega
      · rename_i h
        simp only [List.length_cons, length_assignByIndex G g rest (i + 1), cntMod,
          if_neg h]
        omega

theorem cntMod_succ_right : ∀ (G g i len : Nat),
    cntMod G g i (len + 1) = cntMod G g i len + (if (i + len) % G = g then 1 else 0)
  | G, g, i, 0 => by simp [cntMod]
  | G, g, i, len + 1 => by
      rw [show cntMod G g i (len + 1 + 1)
          = (if i % G = g then 1 else 0) + cntMod G g (i + 1) (len + 1) from rfl,
        cntMod_succ_right G g (i + 1) len,
        show cntMod G g i (len + 1)
          = (if i % G = g then 1 else 0) + cntMod G g (i + 1) len from rfl]
      have harith : i + 1 + len = i + (len + 1) := by omega
      rw [harith]
      omega

theorem cntMod_closed (G : Nat) (hG : 2 ≤ G) (g : Nat) (hg : g < G) (len : Nat) :
    cntMod G g 0 len = len / G + if g < len % G then 1 else 0 := by
  induction len with
  | zero => simp [cntMod]
  | succ len ih =>
      rw [cntMod_succ_right, ih, Nat.zero_add]
      have hr : len % G < G := Nat.mod_lt _ (by omega)
      by_cases hrG : len % G + 1 = G
      · have hmod : (len + 1) % G = 0 := by
          rw [Nat.add_mod, Nat.mod_eq_of_lt (show 1 < G by omega), hrG, Nat.mod_self]
        have hdvd : G ∣ len + 1 := Nat.dvd_of_mod_eq_zero hmod
        have hdiv : (len + 1) / G = len / G + 1 := by
          rw [Nat.succ_div, if_pos hdvd]
        rw [hmod, hdiv, if_neg (Nat.not_lt_zero g)]
        by_cases h1 : g < len % G
        · rw [if_pos h1, if_neg (by omega)]
        · rw [if_neg h1, if_pos (by omega)]
      · have hlt : len % G + 1 < G := by omega
        have hmod : (len + 1) % G = len % G + 1 := by
          rw [Nat.add_mod, Nat.mod_eq_of_lt (show 1 < G by omega),
            Nat.mod_eq_of_lt hlt]
        have hdvd : ¬ G ∣ len + 1 := by
          intro hcon
          have h0 : (len + 1) % G = 0 := Nat.mod_eq_zero_of_dvd hcon
          rw [hmod] at h0
          omega
        have hdiv : (len + 1) / G = len / G := by
          rw [Nat.succ_div, if_neg hdvd]
          omega
        rw [hmod, hdiv]
        by_cases h1 : g < len % G
        · rw [if_pos h1, if_neg (by omega), if_pos (by omega)]
        · by_cases h2 : len % G = g
          · rw [if_neg h1, if_pos h2, if_pos (by omega)]
          · rw [if_neg h1, if_neg h2, if_neg (by omega)]

theorem cntMod_balance (G : Nat) (hG : 0 < G) (g1 g2 : Nat) (h1 : g1 < G) (h2 : g2 < G)
    (len : Nat) : cntMod G g1 0 len ≤ cntMod G g2 0 len + 1 := by
  rcases Nat.lt_or_ge G 2 with hG1 | hG2
  · have e1 : g1 = 0 := by omega
    have e2 : g2 = 0 := by omega
    subst e1
    subst e2
    omega
  · rw [cntMod_closed G hG2 g1 h1 len, cntMod_closed G hG2 g2 h2 len]
    by_cases a1 : g1 < len % G <;> by_cases a2 : g2 < len % G <;>
      simp only [a1, a2, if_pos, if_neg, if_true, if_false] <;> omega

theorem assignByIndex_mem : ∀ (G : Nat) (l : List Participant) (i0 j : Nat)
    (hj : j < l.length), l.get ⟨j, hj⟩ ∈ assignByIndex G ((i0 + j) % G) l i0
  | G, [], i0, j, hj => absurd hj (by simp)
  | G, p :: rest, i0, 0, hj => by
      show p ∈ assignByIndex G ((i0 + 0) % G) (p :: rest) i0
      rw [Nat.add_zero, assignByIndex, if_pos rfl]
      exact List.mem_cons_self _ _
  | G, p :: rest, i0, j + 1, hj => by
      have ih := assignByIndex_mem G rest (i0 + 1) j
        (by simpa using Nat.lt_of_succ_lt_succ hj)
      have harith : (i0 + (j + 1)) % G = ((i0 + 1) + j) % G := by
        congr 1
        omega
      show (p :: rest).get ⟨j + 1, hj⟩ ∈ assignByIndex G ((i0 + (j + 1)) % G) (p :: rest) i0
      rw [harith, assignByIndex]
      split
      · exact List.mem_cons_of_mem p ih
      · exact ih

/-- Claim C7: `generateGroupStage` creates exactly
`min(4, max(1, floor(N / 4)))` groups named with consecutive letters from A,
assigns the participant at index i to group `i mod groupCount`, and the
resulting group sizes differ by at most 1. -/
theorem c7_group_partition (ps : List Participant) (h1 : 1 ≤ ps.length) :
    (generateGroupStage ps).groups.length = min 4 (max 1 (ps.length / 4))
    ∧ (generateGroupStage ps).groups.map Group.name
        = (List.range (min 4 (max 1 (ps.length / 4)))).map
            (fun i => (Char.ofNat (65 + i)).toString)
    ∧ (∀ j (hj : j < ps.length),
        ∃ gr, (generateGroupStage ps).groups[j % min 4 (max 1 (ps.length / 4))]? = some gr
          ∧ ps.get ⟨j, hj⟩ ∈ gr.participants)
    ∧ ∀ g1 ∈ (generateGroupStage ps).groups, ∀ g2 ∈ (generateGroupStage ps).groups,
        g1.participants.length ≤ g2.participants.length + 1 := by
  have hGpos : 0 < groupCountOf ps.length := by
    rw [groupCountOf]
    omega
  refine ⟨?_, ?_, ?_, ?_⟩
  · rw [generateGroupStage_groups_eq, List.length_map, List.length_range]
    rfl
  · rw [generateGroupStage_groups_eq, List.map_map]
    rfl
  · intro j hj
    have hjG : j % groupCountOf ps.length < groupCountOf ps.length :=
      Nat.mod_lt _ hGpos
    have h := assignByIndex_mem (groupCountOf ps.length) ps 0 j hj
    rw [Nat.zero_add] at h
    refine ⟨{ name := groupName (j % groupCountOf ps.length),
              participants := assignByIndex (groupCountOf ps.length)
                (j % groupCountOf ps.length) ps 0,
              matchList := rrMatches (groupName (j % groupCountOf ps.length))
                (assignByIndex (groupCountOf ps.length)
                  (j % groupCountOf ps.length) ps 0) 1 }, ?_, h⟩
    show (generateGroupStage ps).groups[j % groupCountOf ps.length]? = some _
    rw [generateGroupStage_groups_eq, List.getElem?_map, List.getElem?_range hjG,
      Option.map_some']
  · intro g1 hg1 g2 hg2
    rw [generateGroupStage_groups_eq] at hg1 hg2
    obtain ⟨i1, hi1, rfl⟩ := List.mem_map.mp hg1
    obtain ⟨i2, hi2, rfl⟩ := List.mem_map.mp hg2
    rw [List.mem_range] at hi1 hi2
    show (assignByIndex (groupCountOf ps.length) i1 ps 0).length
      ≤ (assignByIndex (groupCountOf ps.length) i2 ps 0).length + 1
    rw [length_assignByIndex, length_assignByIndex]
    exact cntMod_balance (groupCountOf ps.length) hGpos i1 i2 hi1 hi2 ps.length

/-- Claim C7, witness: the statement applied at the concrete six-participant
input, which yields a single group of six. -/
theorem c7_witness :
    1 ≤ ps6.length
    ∧ (generateGroupStage ps6).groups.length = min 4 (max 1 (ps6.length / 4))
    ∧ (generateGroupStage ps6).groups.map Group.name
        = (List.range (min 4 (max 1 (ps6.length / 4)))).map
            (fun i => (Char.ofNat (65 + i)).toString)
    ∧ (∀ j (hj : j < ps6.length),
        ∃ gr, (generateGroupStage ps6).groups[j % min 4 (max 1 (ps6.length / 4))]? = some gr
          ∧ ps6.get ⟨j, hj⟩ ∈ gr.participants)
    ∧ ∀ g1 ∈ (generateGroupStage ps6).groups, ∀ g2 ∈ (generateGroupStage ps6).groups,
        g1.participants.length ≤ g2.participants.length + 1 := by
  have h := c7_group_partition ps6 (by decide)
  exact ⟨by decide, h.1, h.2.1, h.2.2.1, h.2.2.2⟩

/-! Shape of the knockout skeleton. -/

theorem roundCount_append (l1 l2 : List Match) (r : Nat) :
    roundCount (l1 ++ l2) r = roundCount l1 r + roundCount l2 r := by
  rw [roundCount, roundCount, roundCount, List.filter_append, List.length_append]

/-- Claim C8: the knockout bracket has `floor((groupCount * 2) / 2)` round-1
matches, each later round holds `ceil` of half the previous round's count
until a single final match remains, and no knockout match carries
participants or a winner. -/
theorem c8_knockout_shape (ps : List Participant) (hne : ps ≠ []) :
    (∀ r, roundCount (generateGroupStage ps).knockoutBracket (r + 1)
        = halveSeq ((min 4 (max 1 (ps.length / 4)) * 2) / 2) r)
    ∧ (∃ R, 1 ≤ R ∧ roundCount (generateGroupStage ps).knockoutBracket R = 1
        ∧ ∀ r, R < r → roundCount (generateGroupStage ps).knockoutBracket r = 0)
    ∧ ∀ m ∈ (generateGroupStage ps).knockoutBracket,
        m.participant1 = none ∧ m.participant2 = none ∧ m.winner = none := by
  have hGpos : 0 < groupCountOf ps.length := by
    rw [groupCountOf]
    omega
  have hG2 : (groupCountOf ps.length * 2) / 2 = groupCountOf ps.length :=
    Nat.mul_div_cancel _ (by omega)
  have hcount : ∀ r, roundCount (generateGroupStage ps).knockoutBracket (r + 1)
      = halveSeq ((groupCountOf ps.length * 2) / 2) r := by
    intro r
    rw [generateGroupStage_knockout_eq, roundCount_append]
    cases r with
    | zero =>
        have hblock : roundCount ((List.range ((groupCountOf ps.length * 2) / 2)).map fun i =>
            ({ id := "knockout-1-" ++ toString (i + 1),
               round := 1, matchNumber := i + 1 } : Match)) 1
            = (groupCountOf ps.length * 2) / 2 := by
          rw [roundCount, List.filter_eq_self.mpr ?_, List.length_map, List.length_range]
          intro m hm
          obtain ⟨i, hi, rfl⟩ := List.mem_map.mp hm
          simp
        have hgen : roundCount (genRounds "knockout-" ((groupCountOf ps.length * 2) / 2) 2) 1
            = 0 := genRounds_roundCount_lt _ _ _ _ (by omega)
        rw [hblock, hgen, halveSeq]
        omega
    | succ k =>
        have hblock : roundCount ((List.range ((groupCountOf ps.length * 2) / 2)).map fun i =>
            ({ id := "knockout-1-" ++ toString (i + 1),
               round := 1, matchNumber := i + 1 } : Match)) (k + 1 + 1) = 0 := by
          rw [roundCount, List.filter_eq_nil_iff.mpr ?_]
          · rfl
          · intro m hm
            obtain ⟨i, hi, rfl⟩ := List.mem_map.mp hm
            simp
        have hgen := genRounds_roundCount "knockout-" ((groupCountOf ps.length * 2) / 2) 2 k
        have harith : k + 1 + 1 = 2 + k := by omega
        rw [hblock, harith, hgen, Nat.zero_add]
  refine ⟨hcount, ?_, ?_⟩
  · obtain ⟨k, hk1, hk2⟩ := halveSeq_reaches_one ((groupCountOf ps.length * 2) / 2)
      (by omega)
    refine ⟨k + 1, by omega, ?_, ?_⟩
    · rw [hcount k, hk1]
    · intro r hr
      obtain ⟨r2, rfl⟩ : ∃ r2, r = r2 + 1 := ⟨r - 1, by omega⟩
      rw [hcount r2, hk2 r2 (by omega)]
  · intro m hm
    rw [generateGroupStage_knockout_eq] at hm
    rcases List.mem_append.mp hm with hm | hm
    · obtain ⟨i, hi, rfl⟩ := List.mem_map.mp hm
      exact ⟨rfl, rfl, rfl⟩
    · have h := genRounds_mem _ _ _ m hm
      exact ⟨h.1, h.2.1, h.2.2.1⟩

/-- Claim C8, witness: the statement applied at the concrete six-participant
input; the extra conjunct checks the claim's N = 6 scenario, a knockout
bracket of exactly one placeholder match. -/
theorem c8_witness :
    ps6 ≠ []
    ∧ (∀ r, roundCount (generateGroupStage ps6).knockoutBracket (r + 1)
        = halveSeq ((min 4 (max 1 (ps6.length / 4)) * 2) / 2) r)
    ∧ (∃ R, 1 ≤ R ∧ roundCount (generateGroupStage ps6).knockoutBracket R = 1
        ∧ ∀ r, R < r → roundCount (generateGroupStage ps6).knockoutBracket r = 0)
    ∧ (∀ m ∈ (generateGroupStage ps6).knockoutBracket,
        m.participant1 = none ∧ m.participant2 = none ∧ m.winner = none)
    ∧ (generateGroupStage ps6).knockoutBracket.length = 1 := by
  have h := c8_knockout_shape ps6 (by decide)
  refine ⟨by decide, h.1, h.2.1, h.2.2, ?_⟩
  simp [generateGroupStage, groupCountOf, ps6]
  simp [genRounds]

end Tournament
